import Mathlib

/-!
# Resource-identifier parsing and formatting engine

A shallow embedding of the resource-identifier (ARM path) engine of the
terraform-provider-azurerm repository: the segment model, identifier
schemas, the parser, the formatter and the validator, together with the
typed identities `MongodbDatabaseId`, `ResourceGroupPolicyRemediationId`
and `ManagedPrivateEndpointId` and the importer combinator
`ImporterValidatingResourceIdThen`.

The generated parser/formatter/constructor code for the three identity
types lives outside this tree (only its generated tests are present), so
those components are modelled from the specification (spec.md §3–§4.5);
`ImporterValidatingResourceIdThen` is embedded directly from
`internal/tf/pluginsdk/imports.go`.
-/

/-! ## Path components: splitting on '/' and joining with '/' -/

/-- Modelled from the spec (§4.3 step 1): raw split of a character list on
`'/'`, keeping every component including empty ones. -/
def rawSplit : List Char → List (List Char)
  | [] => [[]]
  | c :: rest =>
    if c = '/' then [] :: rawSplit rest
    else
      match rawSplit rest with
      | [] => [[c]]
      | p :: ps => (c :: p) :: ps

/-- Drop the empty component produced by a leading slash (or by an empty
input), per spec §4.3 step 1. -/
def stripLead : List (List Char) → List (List Char)
  | [] :: rest => rest
  | l => l

/-- Drop the empty component produced by a trailing slash, per spec §4.3
step 1. -/
def stripTrail : List (List Char) → List (List Char)
  | [] => []
  | [x] => if x = [] then [] else [x]
  | x :: y :: rest => x :: stripTrail (y :: rest)

/-- Modelled from the spec (§4.3 step 1): split a raw path string into its
components, discarding the empty leading/trailing components produced by a
leading/trailing slash but keeping internal empty components. -/
def splitPath (cs : List Char) : List (List Char) :=
  stripTrail (stripLead (rawSplit cs))

/-- Modelled from the spec (§4.4): join components with `'/'`, prefixed
with a leading `'/'`. -/
def joinComponents : List (List Char) → List Char
  | [] => []
  | c :: rest => '/' :: (c ++ joinComponents rest)

/-- Join components with `'/'` and no leading slash (used to relate a raw
split back to the original string). -/
def joinRaw : List (List Char) → List Char
  | [] => []
  | [c] => c
  | c :: d :: rest => c ++ '/' :: joinRaw (d :: rest)

/-! ## Segment model (spec §4.1) -/

/-- Modelled from the spec (§3, §4.1): the kind of one path segment.  The
schemas under test use no scope segments, so the scope kind is omitted. -/
inductive SegmentKind where
  | staticLiteral
  | resourceProviderLiteral
  | subscription
  | resourceGroup
  | userSpecifiedName
  | constantValue
deriving DecidableEq, Repr

/-- Literal-key kinds are matched case-insensitively against a fixed value
(spec §4.3 step 3); the remaining kinds are value segments. -/
def SegmentKind.isLiteralKey : SegmentKind → Bool
  | .staticLiteral => true
  | .resourceProviderLiteral => true
  | _ => false

/-- Modelled from the spec (§3): one segment of an identifier schema, with
its semantic name, kind, fixed value (literal kinds) and allowed values
(constant kind). -/
structure Segment where
  name : String
  kind : SegmentKind
  fixedValue : String
  allowedValues : List String
deriving DecidableEq, Repr

def NewStaticLiteralSegment (value : String) : Segment :=
  ⟨value, .staticLiteral, value, []⟩

def NewSubscriptionIdSegment (name : String) : Segment :=
  ⟨name, .subscription, "", []⟩

def NewResourceGroupSegment (name : String) : Segment :=
  ⟨name, .resourceGroup, "", []⟩

def NewResourceProviderSegment (name literalValue : String) : Segment :=
  ⟨name, .resourceProviderLiteral, literalValue, []⟩

def NewUserSpecifiedSegment (name : String) : Segment :=
  ⟨name, .userSpecifiedName, "", []⟩

/-- Modelled from the spec (§7): the parser's error taxonomy. -/
inductive ParseError where
  | missingSegmentValue (segmentName : String)
  | unexpectedSegment (expectedLiteral actualValue : String)
  | tooManySegments (remainder : List String)
  | invalidConstantValue (segmentName value : String) (allowed : List String)
deriving DecidableEq, Repr

/-! ## Parser (spec §4.3) -/

/-- Case-insensitive comparison of a literal against a component (spec
§4.3 step 3). -/
def matchesLiteral (expected : String) (actual : List Char) : Bool :=
  expected.toList.map Char.toLower = actual.map Char.toLower

/-- Modelled from the spec (§4.3 steps 2–6): walk the schema's segments and
the path components in lock-step.  Literal keys are compared
case-insensitively; value segments are taken verbatim and must be
non-empty; constant values are checked case-sensitively against the
allowed set; leftover components are `tooManySegments` and missing ones
`missingSegmentValue`. -/
def parseSegments : List Segment → List (List Char) → Except ParseError (List String)
  | [], [] => .ok []
  | [], c :: cs => .error (.tooManySegments ((c :: cs).map String.mk))
  | seg :: _, [] => .error (.missingSegmentValue seg.name)
  | seg :: segs, c :: cs =>
    if c = [] then .error (.missingSegmentValue seg.name)
    else
      match seg.kind with
      | .staticLiteral =>
        if matchesLiteral seg.fixedValue c then parseSegments segs cs
        else .error (.unexpectedSegment seg.fixedValue (String.mk c))
      | .resourceProviderLiteral =>
        if matchesLiteral seg.fixedValue c then parseSegments segs cs
        else .error (.unexpectedSegment seg.fixedValue (String.mk c))
      | .subscription => Except.map (fun vs => String.mk c :: vs) (parseSegments segs cs)
      | .resourceGroup => Except.map (fun vs => String.mk c :: vs) (parseSegments segs cs)
      | .userSpecifiedName => Except.map (fun vs => String.mk c :: vs) (parseSegments segs cs)
      | .constantValue =>
        if String.mk c ∈ seg.allowedValues then
          Except.map (fun vs => String.mk c :: vs) (parseSegments segs cs)
        else .error (.invalidConstantValue seg.name (String.mk c) seg.allowedValues)

/-- Modelled from the spec (§4.3): parse a raw path string against a
schema, yielding the value-segment values in schema order. -/
def parsePath (segs : List Segment) (input : String) : Except ParseError (List String) :=
  parseSegments segs (splitPath input.toList)

/-! ## Formatter (spec §4.4) -/

/-- Modelled from the spec (§4.4): the components of the canonical path of
an identity: canonical casing for literal segments, stored values verbatim
for value segments. -/
def formatComponents : List Segment → List String → List (List Char)
  | [], _ => []
  | seg :: segs, vals =>
    if seg.kind.isLiteralKey then seg.fixedValue.toList :: formatComponents segs vals
    else
      match vals with
      | [] => formatComponents segs []
      | v :: vs => v.toList :: formatComponents segs vs

/-- Modelled from the spec (§4.4): the canonical path string of an
identity's values, joined with `'/'` and prefixed with a leading `'/'`. -/
def formatPath (segs : List Segment) (vals : List String) : String :=
  String.mk (joinComponents (formatComponents segs vals))

/-! ## The three identity types and their schemas -/

structure MongodbDatabaseId where
  SubscriptionId : String
  ResourceGroup : String
  DatabaseAccountName : String
  Name : String
deriving DecidableEq, Repr

def MongodbDatabaseId.schema : List Segment :=
  [NewStaticLiteralSegment "subscriptions",
   NewSubscriptionIdSegment "SubscriptionId",
   NewStaticLiteralSegment "resourceGroups",
   NewResourceGroupSegment "ResourceGroup",
   NewStaticLiteralSegment "providers",
   NewResourceProviderSegment "provider" "Microsoft.DocumentDB",
   NewStaticLiteralSegment "databaseAccounts",
   NewUserSpecifiedSegment "DatabaseAccountName",
   NewStaticLiteralSegment "mongodbDatabases",
   NewUserSpecifiedSegment "Name"]

def MongodbDatabaseId.ID (id : MongodbDatabaseId) : String :=
  formatPath MongodbDatabaseId.schema
    [id.SubscriptionId, id.ResourceGroup, id.DatabaseAccountName, id.Name]

namespace parse

def NewMongodbDatabaseID (subscriptionId resourceGroup databaseAccountName name : String) :
    MongodbDatabaseId :=
  ⟨subscriptionId, resourceGroup, databaseAccountName, name⟩

/-- Modelled from the spec: the generated parser `parse.MongodbDatabaseID`
(not under this tree; only its generated test is), as the schema-driven
parse of spec §4.3 followed by populating the typed identity. -/
def MongodbDatabaseID (input : String) : Except ParseError MongodbDatabaseId :=
  match parsePath MongodbDatabaseId.schema input with
  | .error e => .error e
  | .ok [sub, rg, acc, nm] => .ok ⟨sub, rg, acc, nm⟩
  | .ok _ => .error (.missingSegmentValue "")

end parse

structure ResourceGroupPolicyRemediationId where
  SubscriptionId : String
  ResourceGroup : String
  RemediationName : String
deriving DecidableEq, Repr

def ResourceGroupPolicyRemediationId.schema : List Segment :=
  [NewStaticLiteralSegment "subscriptions",
   NewSubscriptionIdSegment "SubscriptionId",
   NewStaticLiteralSegment "resourceGroups",
   NewResourceGroupSegment "ResourceGroup",
   NewStaticLiteralSegment "providers",
   NewResourceProviderSegment "provider" "Microsoft.PolicyInsights",
   NewStaticLiteralSegment "remediations",
   NewUserSpecifiedSegment "RemediationName"]

def ResourceGroupPolicyRemediationId.ID (id : ResourceGroupPolicyRemediationId) : String :=
  formatPath ResourceGroupPolicyRemediationId.schema
    [id.SubscriptionId, id.ResourceGroup, id.RemediationName]

namespace parse

def NewResourceGroupPolicyRemediationID (subscriptionId resourceGroup remediationName : String) :
    ResourceGroupPolicyRemediationId :=
  ⟨subscriptionId, resourceGroup, remediationName⟩

/-- Modelled from the spec: the generated parser
`parse.ResourceGroupPolicyRemediationID` (not under this tree; only its
generated test is). -/
def ResourceGroupPolicyRemediationID (input : String) :
    Except ParseError ResourceGroupPolicyRemediationId :=
  match parsePath ResourceGroupPolicyRemediationId.schema input with
  | .error e => .error e
  | .ok [sub, rg, rem] => .ok ⟨sub, rg, rem⟩
  | .ok _ => .error (.missingSegmentValue "")

end parse

structure ManagedPrivateEndpointId where
  SubscriptionId : String
  ResourceGroup : String
  FactoryName : String
  ManagedVirtualNetworkName : String
  Name : String
deriving DecidableEq, Repr

def ManagedPrivateEndpointId.schema : List Segment :=
  [NewStaticLiteralSegment "subscriptions",
   NewSubscriptionIdSegment "SubscriptionId",
   NewStaticLiteralSegment "resourceGroups",
   NewResourceGroupSegment "ResourceGroup",
   NewStaticLiteralSegment "providers",
   NewResourceProviderSegment "provider" "Microsoft.DataFactory",
   NewStaticLiteralSegment "factories",
   NewUserSpecifiedSegment "FactoryName",
   NewStaticLiteralSegment "managedVirtualNetworks",
   NewUserSpecifiedSegment "ManagedVirtualNetworkName",
   NewStaticLiteralSegment "managedPrivateEndpoints",
   NewUserSpecifiedSegment "Name"]

def ManagedPrivateEndpointId.ID (id : ManagedPrivateEndpointId) : String :=
  formatPath ManagedPrivateEndpointId.schema
    [id.SubscriptionId, id.ResourceGroup, id.FactoryName,
     id.ManagedVirtualNetworkName, id.Name]

namespace parse

def NewManagedPrivateEndpointID
    (subscriptionId resourceGroup factoryName managedVirtualNetworkName name : String) :
    ManagedPrivateEndpointId :=
  ⟨subscriptionId, resourceGroup, factoryName, managedVirtualNetworkName, name⟩

/-- Modelled from the spec: the generated parser
`parse.ManagedPrivateEndpointID` (not under this tree; only the validator's
generated test is). -/
def ManagedPrivateEndpointID (input : String) : Except ParseError ManagedPrivateEndpointId :=
  match parsePath ManagedPrivateEndpointId.schema input with
  | .error e => .error e
  | .ok [sub, rg, fac, vnet, nm] => .ok ⟨sub, rg, fac, vnet, nm⟩
  | .ok _ => .error (.missingSegmentValue "")

end parse

/-! ## Validator (spec §4.5) -/

/-- A human-readable description of a parse error; each description embeds
the offending segment name (or the leftover components). -/
def describeParseError : ParseError → String
  | .missingSegmentValue n => "missing value for segment " ++ n
  | .unexpectedSegment e a => "expected segment " ++ e ++ " but got segment " ++ a
  | .tooManySegments r => "unexpected extra segments " ++ String.intercalate "/" r
  | .invalidConstantValue n v _ => "the value " ++ v ++ " is not allowed for constant segment " ++ n

/-- The segment name a parse error is attributed to (empty for the
`tooManySegments` error, which carries leftover components instead). -/
def offendingSegmentName : ParseError → String
  | .missingSegmentValue n => n
  | .unexpectedSegment e _ => e
  | .tooManySegments _ => ""
  | .invalidConstantValue n _ _ => n

namespace validate

/-- Modelled from the spec (§4.5): the generated validator
`validate.ManagedPrivateEndpointID` (not under this tree; only its
generated test is): given a candidate string and a field path `key` for
error attribution, return no errors when the parse succeeds and exactly
one descriptive error, prefixed with the field path and naming the
offending segment, when it fails. -/
def ManagedPrivateEndpointID (input key : String) : List String :=
  match parse.ManagedPrivateEndpointID input with
  | .ok _ => []
  | .error e => [key ++ ": " ++ describeParseError e]

end validate

/-! ## Importer combinators (`internal/tf/pluginsdk/imports.go`) -/

/-- The slice of resource state objects the importer works on; only the
ID is relevant to the importer combinators, so the other fields of the
plugin SDK's `ResourceData` are elided. -/
structure ResourceData where
  id : String
deriving DecidableEq, Repr

/-- Embedded from `internal/tf/pluginsdk/imports.go`
(`ImporterValidatingResourceIdThen`): the `StateContext` closure first runs
`validateFunc` on the resource's ID; on an error it returns the single
resource datum unchanged together with that error (never calling
`thenFunc`), otherwise it returns `thenFunc`'s result.  A Go `error` is
`Option String` (`none` = nil); the Go function also logs and installs a
read-timeout deadline on the context, side effects with no observable
value-level behaviour, which are elided here along with the context
argument. -/
def ImporterValidatingResourceIdThen {μ : Type} (validateFunc : String → Option String)
    (thenFunc : ResourceData → μ → List ResourceData × Option String)
    (d : ResourceData) (meta : μ) : List ResourceData × Option String :=
  match validateFunc d.id with
  | some err => ([d], some err)
  | none => thenFunc d meta

/-- Embedded from `internal/tf/pluginsdk/imports.go`
(`ImporterValidatingResourceId`): the variant whose `thenFunc` returns the
resource datum unchanged. -/
def ImporterValidatingResourceId {μ : Type} (validateFunc : String → Option String)
    (d : ResourceData) (meta : μ) : List ResourceData × Option String :=
  ImporterValidatingResourceIdThen validateFunc (fun d _ => ([d], none)) d meta

/-! ## Concrete-scenario claims -/

/-- C5: `NewResourceGroupPolicyRemediationID("12345678-1234-9876-4563-123456789012",
"resGroup1", "remediation1").ID()` returns exactly
`/subscriptions/12345678-1234-9876-4563-123456789012/resourceGroups/resGroup1/providers/Microsoft.PolicyInsights/remediations/remediation1`. -/
theorem remediation_formatter_concrete :
    (parse.NewResourceGroupPolicyRemediationID "12345678-1234-9876-4563-123456789012"
        "resGroup1" "remediation1").ID =
      "/subscriptions/12345678-1234-9876-4563-123456789012/resourceGroups/resGroup1/providers/Microsoft.PolicyInsights/remediations/remediation1" := by
  rfl

/-- C6: parsing the valid MongodbDatabase ID string succeeds and populates
`SubscriptionId`, `ResourceGroup`, `DatabaseAccountName` and `Name` with the
corresponding path values. -/
theorem mongodb_parse_concrete :
    parse.MongodbDatabaseID
        "/subscriptions/12345678-1234-9876-4563-123456789012/resourceGroups/resGroup1/providers/Microsoft.DocumentDB/databaseAccounts/acc1/mongodbDatabases/db1" =
      .ok ⟨"12345678-1234-9876-4563-123456789012", "resGroup1", "acc1", "db1"⟩ := by
  rfl

/-- C7: for every schema (every non-empty segment list), parsing the empty
string fails with `missingSegmentValue` naming the schema's first segment;
in particular each of the three parsers reports the leading
`subscriptions` segment. -/
theorem empty_input_missing_first_segment :
    (∀ (seg : Segment) (segs : List Segment),
        parsePath (seg :: segs) "" = .error (.missingSegmentValue seg.name)) ∧
    parse.MongodbDatabaseID "" = .error (.missingSegmentValue "subscriptions") ∧
    parse.ResourceGroupPolicyRemediationID "" = .error (.missingSegmentValue "subscriptions") ∧
    parse.ManagedPrivateEndpointID "" = .error (.missingSegmentValue "subscriptions") := by
  refine ⟨fun seg segs => rfl, rfl, rfl, rfl⟩

/-- C2 counterexample: a valid MongodbDatabase ID string with a trailing
slash parses successfully (spec §4.3 step 1 discards the empty trailing
component), its literal keys already carry the canonical casing, and yet
formatting the parsed identity does not reproduce the input: the trailing
slash is lost, so `Format(Parse(s))` is not identical to `s` up to
literal-key casing. -/
theorem format_parse_not_identity_counterexample :
    parse.MongodbDatabaseID
        "/subscriptions/12345678-1234-9876-4563-123456789012/resourceGroups/resGroup1/providers/Microsoft.DocumentDB/databaseAccounts/acc1/mongodbDatabases/db1/" =
      .ok ⟨"12345678-1234-9876-4563-123456789012", "resGroup1", "acc1", "db1"⟩ ∧
    (MongodbDatabaseId.ID ⟨"12345678-1234-9876-4563-123456789012", "resGroup1", "acc1", "db1"⟩) ≠
      "/subscriptions/12345678-1234-9876-4563-123456789012/resourceGroups/resGroup1/providers/Microsoft.DocumentDB/databaseAccounts/acc1/mongodbDatabases/db1/" := by
  refine ⟨rfl, by decide⟩

/-- C10: the `StateContext` built by `ImporterValidatingResourceIdThen`
returns the single unmodified resource datum together with the validation
error when `validateFunc` rejects the ID — independently of `thenFunc`,
which is never consulted — and returns exactly `thenFunc`'s result when
`validateFunc` returns nil. -/
theorem importer_validating_resource_id_then_spec {μ : Type}
    (validateFunc : String → Option String)
    (thenFunc : ResourceData → μ → List ResourceData × Option String)
    (d : ResourceData) (meta : μ) :
    (∀ e, validateFunc d.id = some e →
      ImporterValidatingResourceIdThen validateFunc thenFunc d meta = ([d], some e) ∧
      ∀ thenFunc', ImporterValidatingResourceIdThen validateFunc thenFunc' d meta =
        ImporterValidatingResourceIdThen validateFunc thenFunc d meta) ∧
    (validateFunc d.id = none →
      ImporterValidatingResourceIdThen validateFunc thenFunc d meta = thenFunc d meta) := by
  constructor
  · intro e he
    constructor
    · simp [ImporterValidatingResourceIdThen, he]
    · intro thenFunc'
      simp [ImporterValidatingResourceIdThen, he]
  · intro he
    simp [ImporterValidatingResourceIdThen, he]

/-- Witness for C10 at concrete inputs: a rejected ID is passed through
with its error and `thenFunc` is ignored; an accepted ID yields exactly
`thenFunc`'s result. -/
theorem importer_validating_resource_id_then_spec_witness :
    ImporterValidatingResourceIdThen (fun s => if s = "" then some "cannot parse" else none)
        (fun r _ => ([r, r], some "extra")) ⟨""⟩ () = ([⟨""⟩], some "cannot parse") ∧
    ImporterValidatingResourceIdThen (fun s => if s = "" then some "cannot parse" else none)
        (fun r _ => ([r, r], some "extra")) ⟨"x"⟩ () = ([⟨"x"⟩, ⟨"x"⟩], some "extra") :=
  ⟨((importer_validating_resource_id_then_spec
        (fun s => if s = "" then some "cannot parse" else none)
        (fun r _ => ([r, r], some "extra")) ⟨""⟩ ()).1 "cannot parse" rfl).1,
   (importer_validating_resource_id_then_spec
        (fun s => if s = "" then some "cannot parse" else none)
        (fun r _ => ([r, r], some "extra")) ⟨"x"⟩ ()).2 rfl⟩

/-! ## Character-case facts -/

theorem char_toNat_ofNat (n : Nat) (h : n.isValidChar) : (Char.ofNat n).toNat = n := by
  simp [Char.ofNat, h, Char.ofNatAux, Char.toNat, UInt32.toNat, BitVec.toNat_ofNatLt]

theorem char_eq_of_toNat_eq (a b : Char) (h : a.toNat = b.toNat) : a = b := by
  have ha := Char.ofNat_toNat a
  rw [h, Char.ofNat_toNat] at ha
  exact ha.symm

/-- Lowering after uppering agrees with lowering directly: an ASCII letter
and its upper-case form have the same canonical lower-case form. -/
theorem toLower_toUpper (c : Char) : c.toUpper.toLower = c.toLower := by
  by_cases h : 97 ≤ c.toNat ∧ c.toNat ≤ 122
  · have hvalid : (c.toNat - 32).isValidChar := by
      left
      omega
    have hup : c.toUpper = Char.ofNat (c.toNat - 32) := by
      simp only [Char.toUpper]
      rw [if_pos]
      exact ⟨h.1, h.2⟩
    have hnat : (Char.ofNat (c.toNat - 32)).toNat = c.toNat - 32 :=
      char_toNat_ofNat _ hvalid
    have hlow : (Char.ofNat (c.toNat - 32)).toLower = Char.ofNat (c.toNat - 32 + 32) := by
      simp only [Char.toLower, hnat]
      rw [if_pos]
      omega
    have hc32 : c.toNat - 32 + 32 = c.toNat := by omega
    have hcl : c.toLower = c := by
      simp only [Char.toLower]
      rw [if_neg]
      omega
    rw [hup, hlow, hc32, Char.ofNat_toNat, hcl]
  · have hup : c.toUpper = c := by
      simp only [Char.toUpper]
      rw [if_neg]
      omega
    rw [hup]

/-- Upper-casing never produces a slash. -/
theorem toUpper_ne_slash (c : Char) (h : c ≠ '/') : c.toUpper ≠ '/' := by
  by_cases hr : 97 ≤ c.toNat ∧ c.toNat ≤ 122
  · have hvalid : (c.toNat - 32).isValidChar := by
      left
      omega
    have hup : c.toUpper = Char.ofNat (c.toNat - 32) := by
      simp only [Char.toUpper]
      rw [if_pos]
      exact ⟨hr.1, hr.2⟩
    intro he
    have : (Char.ofNat (c.toNat - 32)).toNat = ('/' : Char).toNat := by rw [← hup, he]
    rw [char_toNat_ofNat _ hvalid] at this
    have hslash : ('/' : Char).toNat = 47 := by decide
    omega
  · have hup : c.toUpper = c := by
      simp only [Char.toUpper]
      rw [if_neg]
      omega
    rw [hup]
    exact h
/-! ## Splitting and joining lemmas -/

theorem rawSplit_ne_nil (cs : List Char) : rawSplit cs ≠ [] := by
  cases cs with
  | nil => simp [rawSplit]
  | cons c rest =>
    simp only [rawSplit]
    split
    · simp
    · split <;> simp

theorem rawSplit_slash_cons (l : List Char) : rawSplit ('/' :: l) = [] :: rawSplit l := by
  simp [rawSplit]

theorem rawSplit_cons_ne (x : Char) (l : List Char) (hx : x ≠ '/') (p : List Char)
    (ps : List (List Char)) (h : rawSplit l = p :: ps) :
    rawSplit (x :: l) = (x :: p) :: ps := by
  simp [rawSplit, hx, h]

theorem rawSplit_append (c t : List Char) (hc : '/' ∉ c) (p : List Char)
    (ps : List (List Char)) (h : rawSplit t = p :: ps) :
    rawSplit (c ++ t) = (c ++ p) :: ps := by
  induction c with
  | nil => simpa using h
  | cons x xs ih =>
    have hx : x ≠ '/' := fun e => hc (by simp [e])
    have hxs := ih (fun m => hc (List.mem_cons_of_mem _ m))
    rw [List.cons_append, rawSplit_cons_ne x (xs ++ t) hx (xs ++ p) ps hxs,
      List.cons_append]

theorem rawSplit_joinComponents (comps : List (List Char))
    (h : ∀ p ∈ comps, '/' ∉ p) :
    rawSplit (joinComponents comps) = [] :: comps := by
  induction comps with
  | nil => simp [joinComponents, rawSplit]
  | cons c rest ih =>
    have hr := ih (fun p hp => h p (List.mem_cons_of_mem _ hp))
    have hc := h c (List.mem_cons_self _ _)
    have hstep := rawSplit_append c (joinComponents rest) hc [] rest hr
    show rawSplit ('/' :: (c ++ joinComponents rest)) = [] :: c :: rest
    rw [rawSplit_slash_cons, hstep, List.append_nil]

theorem not_slash_mem_rawSplit (cs : List Char) :
    ∀ p ∈ rawSplit cs, '/' ∉ p := by
  induction cs with
  | nil =>
    intro p hp
    simp [rawSplit] at hp
    simp [hp]
  | cons c rest ih =>
    intro p hp
    by_cases hc : c = '/'
    · subst hc
      rw [rawSplit_slash_cons] at hp
      rcases List.mem_cons.mp hp with h | h
      · simp [h]
      · exact ih p h
    · rcases hq : rawSplit rest with _ | ⟨q, qs⟩
      · exact absurd hq (rawSplit_ne_nil rest)
      · rw [rawSplit_cons_ne c rest hc q qs hq] at hp
        rcases List.mem_cons.mp hp with h | h
        · subst h
          intro hmem
          rcases List.mem_cons.mp hmem with h' | h'
          · exact hc h'.symm
          · exact ih q (hq ▸ List.mem_cons_self _ _) h'
        · exact ih p (hq ▸ List.mem_cons_of_mem _ h)

theorem stripLead_cons_nil (l : List (List Char)) : stripLead ([] :: l) = l := rfl

theorem stripTrail_of_ne_nil (l : List (List Char)) (h : ∀ p ∈ l, p ≠ []) :
    stripTrail l = l := by
  induction l with
  | nil => rfl
  | cons x xs ih =>
    cases xs with
    | nil =>
      have hx := h x (List.mem_cons_self _ _)
      simp [stripTrail, hx]
    | cons y ys =>
      have heq : stripTrail (x :: y :: ys) = x :: stripTrail (y :: ys) := rfl
      rw [heq, ih (fun p hp => h p (List.mem_cons_of_mem _ hp))]

theorem stripTrail_append_nil (xs : List (List Char)) (h : ∀ p ∈ xs, p ≠ []) :
    stripTrail (xs ++ [[]]) = xs := by
  induction xs with
  | nil => rfl
  | cons x xs ih =>
    cases xs with
    | nil =>
      have hx := h x (List.mem_cons_self _ _)
      simp only [List.nil_append, List.cons_append]
      have heq : stripTrail [x, []] = x :: stripTrail [([] : List Char)] := rfl
      rw [heq]
      simp [stripTrail, hx]
    | cons y ys =>
      have ihr := ih (fun p hp => h p (List.mem_cons_of_mem _ hp))
      simp only [List.cons_append] at ihr ⊢
      have heq : stripTrail (x :: y :: (ys ++ [[]])) = x :: stripTrail (y :: (ys ++ [[]])) := rfl
      rw [heq, ihr]

theorem splitPath_joinComponents (comps : List (List Char))
    (hslash : ∀ p ∈ comps, '/' ∉ p) (hne : ∀ p ∈ comps, p ≠ []) :
    splitPath (joinComponents comps) = comps := by
  unfold splitPath
  rw [rawSplit_joinComponents comps hslash, stripLead_cons_nil,
    stripTrail_of_ne_nil comps hne]

theorem joinComponents_append_nil (xs : List (List Char)) :
    joinComponents (xs ++ [[]]) = joinComponents xs ++ ['/'] := by
  induction xs with
  | nil => rfl
  | cons x xs ih =>
    show '/' :: (x ++ joinComponents (xs ++ [[]])) = ('/' :: (x ++ joinComponents xs)) ++ ['/']
    rw [ih, List.cons_append, List.append_assoc]

theorem splitPath_joinComponents_slash (comps : List (List Char))
    (hslash : ∀ p ∈ comps, '/' ∉ p) (hne : ∀ p ∈ comps, p ≠ []) :
    splitPath (joinComponents comps ++ ['/']) = comps := by
  rw [← joinComponents_append_nil comps]
  unfold splitPath
  have hslash' : ∀ p ∈ comps ++ [[]], '/' ∉ p := by
    intro p hp
    rcases List.mem_append.mp hp with h | h
    · exact hslash p h
    · simp at h
      simp [h]
  rw [rawSplit_joinComponents _ hslash', stripLead_cons_nil,
    stripTrail_append_nil comps hne]

/-! ## Parser inversion lemmas -/

theorem toList_ne_nil {s : String} (h : s ≠ "") : s.toList ≠ [] := by
  intro hl
  exact h (String.ext hl)

theorem matchesLiteral_iff (f : String) (c : List Char) :
    matchesLiteral f c = true ↔ f.toList.map Char.toLower = c.map Char.toLower := by
  simp [matchesLiteral]

theorem parseSegments_nil_ok {comps : List (List Char)} {vals : List String}
    (h : parseSegments [] comps = .ok vals) : comps = [] ∧ vals = [] := by
  cases comps with
  | nil =>
    refine ⟨rfl, ?_⟩
    simpa [parseSegments] using h.symm
  | cons c cs => simp [parseSegments] at h

theorem parseSegments_ok_static {seg : Segment} {segs : List Segment} {c : List Char}
    {cs : List (List Char)} {vals : List String}
    (hk : seg.kind = .staticLiteral ∨ seg.kind = .resourceProviderLiteral)
    (h : parseSegments (seg :: segs) (c :: cs) = .ok vals) :
    c ≠ [] ∧ matchesLiteral seg.fixedValue c = true ∧ parseSegments segs cs = .ok vals := by
  by_cases hc : c = []
  · rcases hk with hk | hk <;> simp [parseSegments, hk, hc] at h
  · refine ⟨hc, ?_⟩
    by_cases hm : matchesLiteral seg.fixedValue c
    · refine ⟨hm, ?_⟩
      rcases hk with hk | hk <;> simpa [parseSegments, hk, hc, hm] using h
    · rcases hk with hk | hk <;> simp [parseSegments, hk, hc, hm] at h

theorem parseSegments_ok_value {seg : Segment} {segs : List Segment} {c : List Char}
    {cs : List (List Char)} {vals : List String}
    (hk : seg.kind = .subscription ∨ seg.kind = .resourceGroup ∨ seg.kind = .userSpecifiedName)
    (h : parseSegments (seg :: segs) (c :: cs) = .ok vals) :
    c ≠ [] ∧ ∃ vs, parseSegments segs cs = .ok vs ∧ vals = String.mk c :: vs := by
  have hstep : parseSegments (seg :: segs) (c :: cs) =
      if c = [] then .error (.missingSegmentValue seg.name)
      else Except.map (fun vs => String.mk c :: vs) (parseSegments segs cs) := by
    rcases hk with hk | hk | hk <;> simp [parseSegments, hk]
  rw [hstep] at h
  by_cases hc : c = []
  · simp [hc] at h
  · rw [if_neg hc] at h
    refine ⟨hc, ?_⟩
    cases hrec : parseSegments segs cs with
    | error e =>
      rw [hrec] at h
      simp [Except.map] at h
    | ok vs =>
      rw [hrec] at h
      simp only [Except.map, Except.ok.injEq] at h
      exact ⟨vs, rfl, h.symm⟩

theorem parseSegments_ok_constant {seg : Segment} {segs : List Segment} {c : List Char}
    {cs : List (List Char)} {vals : List String}
    (hk : seg.kind = .constantValue)
    (h : parseSegments (seg :: segs) (c :: cs) = .ok vals) :
    c ≠ [] ∧ String.mk c ∈ seg.allowedValues ∧
      ∃ vs, parseSegments segs cs = .ok vs ∧ vals = String.mk c :: vs := by
  by_cases hc : c = []
  · simp [parseSegments, hk, hc] at h
  · by_cases hmem : String.mk c ∈ seg.allowedValues
    · refine ⟨hc, hmem, ?_⟩
      simp only [parseSegments, hk, if_neg hc, if_pos hmem] at h
      cases hrec : parseSegments segs cs with
      | error e =>
        rw [hrec] at h
        simp [Except.map] at h
      | ok vs =>
        rw [hrec] at h
        simp only [Except.map, Except.ok.injEq] at h
        exact ⟨vs, rfl, h.symm⟩
    · simp [parseSegments, hk, hc, hmem] at h

theorem parseSegments_cons_ok {seg : Segment} {segs : List Segment} {c : List Char}
    {cs : List (List Char)} {vals : List String}
    (h : parseSegments (seg :: segs) (c :: cs) = .ok vals) :
    c ≠ [] ∧ ∃ vs, parseSegments segs cs = .ok vs := by
  cases hkind : seg.kind with
  | staticLiteral =>
    obtain ⟨hc, _, ht⟩ := parseSegments_ok_static (Or.inl hkind) h
    exact ⟨hc, vals, ht⟩
  | resourceProviderLiteral =>
    obtain ⟨hc, _, ht⟩ := parseSegments_ok_static (Or.inr hkind) h
    exact ⟨hc, vals, ht⟩
  | subscription =>
    obtain ⟨hc, vs, ht, _⟩ := parseSegments_ok_value (Or.inl hkind) h
    exact ⟨hc, vs, ht⟩
  | resourceGroup =>
    obtain ⟨hc, vs, ht, _⟩ := parseSegments_ok_value (Or.inr (Or.inl hkind)) h
    exact ⟨hc, vs, ht⟩
  | userSpecifiedName =>
    obtain ⟨hc, vs, ht, _⟩ := parseSegments_ok_value (Or.inr (Or.inr hkind)) h
    exact ⟨hc, vs, ht⟩
  | constantValue =>
    obtain ⟨hc, _, vs, ht, _⟩ := parseSegments_ok_constant hkind h
    exact ⟨hc, vs, ht⟩

theorem parseSegments_length {segs : List Segment} {comps : List (List Char)}
    {vals : List String} (h : parseSegments segs comps = .ok vals) :
    comps.length = segs.length := by
  induction segs generalizing comps vals with
  | nil =>
    obtain ⟨rfl, rfl⟩ := parseSegments_nil_ok h
    rfl
  | cons seg segs ih =>
    cases comps with
    | nil => simp [parseSegments] at h
    | cons c cs =>
      obtain ⟨_, vs, ht⟩ := parseSegments_cons_ok h
      simp [ih ht]

theorem parseSegments_comps_ne_nil {segs : List Segment} {comps : List (List Char)}
    {vals : List String} (h : parseSegments segs comps = .ok vals) :
    ∀ p ∈ comps, p ≠ [] := by
  induction segs generalizing comps vals with
  | nil =>
    obtain ⟨rfl, rfl⟩ := parseSegments_nil_ok h
    simp
  | cons seg segs ih =>
    cases comps with
    | nil => simp
    | cons c cs =>
      obtain ⟨hc, vs, ht⟩ := parseSegments_cons_ok h
      intro p hp
      rcases List.mem_cons.mp hp with hpc | hpc
      · exact hpc ▸ hc
      · exact ih ht p hpc

/-! ## Forward step lemmas and truncation -/

theorem parseSegments_step_literal (seg : Segment) (segs : List Segment) (c : List Char)
    (cs : List (List Char)) (hk : seg.kind.isLiteralKey = true) (hc : c ≠ [])
    (hm : matchesLiteral seg.fixedValue c = true) :
    parseSegments (seg :: segs) (c :: cs) = parseSegments segs cs := by
  cases hkind : seg.kind with
  | staticLiteral => simp [parseSegments, hkind, hc, hm]
  | resourceProviderLiteral => simp [parseSegments, hkind, hc, hm]
  | subscription => simp [SegmentKind.isLiteralKey, hkind] at hk
  | resourceGroup => simp [SegmentKind.isLiteralKey, hkind] at hk
  | userSpecifiedName => simp [SegmentKind.isLiteralKey, hkind] at hk
  | constantValue => simp [SegmentKind.isLiteralKey, hkind] at hk

theorem parseSegments_step_value (seg : Segment) (segs : List Segment) (c : List Char)
    (cs : List (List Char))
    (hk : seg.kind = .subscription ∨ seg.kind = .resourceGroup ∨ seg.kind = .userSpecifiedName)
    (hc : c ≠ []) :
    parseSegments (seg :: segs) (c :: cs) =
      Except.map (fun vs => String.mk c :: vs) (parseSegments segs cs) := by
  rcases hk with hk | hk | hk <;> simp [parseSegments, hk, hc]

/-- The semantic name of the `k`-th segment of a schema (empty when the
index is out of range). -/
def segmentNameAt (segs : List Segment) (k : Nat) : String :=
  match segs[k]? with
  | some seg => seg.name
  | none => ""

theorem parseSegments_take {segs : List Segment} {comps : List (List Char)}
    {vals : List String} (h : parseSegments segs comps = .ok vals) (k : Nat)
    (hk : k < segs.length) :
    parseSegments segs (comps.take k) =
      .error (.missingSegmentValue (segmentNameAt segs k)) := by
  induction k generalizing segs comps vals with
  | zero =>
    cases segs with
    | nil => simp at hk
    | cons seg segs => simp [parseSegments, segmentNameAt]
  | succ k ih =>
    cases segs with
    | nil => simp at hk
    | cons seg segs =>
      cases comps with
      | nil => simp [parseSegments] at h
      | cons c cs =>
        have hk' : k < segs.length := by simpa using hk
        have hname : segmentNameAt (seg :: segs) (k + 1) = segmentNameAt segs k := by
          simp [segmentNameAt]
        rw [List.take_succ_cons, hname]
        cases hkind : seg.kind with
        | staticLiteral =>
          obtain ⟨hc, hm, ht⟩ := parseSegments_ok_static (Or.inl hkind) h
          rw [parseSegments_step_literal seg segs c _ (by simp [SegmentKind.isLiteralKey, hkind]) hc hm,
            ih ht hk']
        | resourceProviderLiteral =>
          obtain ⟨hc, hm, ht⟩ := parseSegments_ok_static (Or.inr hkind) h
          rw [parseSegments_step_literal seg segs c _ (by simp [SegmentKind.isLiteralKey, hkind]) hc hm,
            ih ht hk']
        | subscription =>
          obtain ⟨hc, vs, ht, _⟩ := parseSegments_ok_value (Or.inl hkind) h
          rw [parseSegments_step_value seg segs c _ (Or.inl hkind) hc, ih ht hk']
          rfl
        | resourceGroup =>
          obtain ⟨hc, vs, ht, _⟩ := parseSegments_ok_value (Or.inr (Or.inl hkind)) h
          rw [parseSegments_step_value seg segs c _ (Or.inr (Or.inl hkind)) hc, ih ht hk']
          rfl
        | userSpecifiedName =>
          obtain ⟨hc, vs, ht, _⟩ := parseSegments_ok_value (Or.inr (Or.inr hkind)) h
          rw [parseSegments_step_value seg segs c _ (Or.inr (Or.inr hkind)) hc, ih ht hk']
          rfl
        | constantValue =>
          obtain ⟨hc, hmem, vs, ht, _⟩ := parseSegments_ok_constant hkind h
          simp only [parseSegments, hkind, if_neg hc, if_pos hmem, ih ht hk']
          rfl

/-! ## Upper-casing literal keys -/

/-- The transformation of claim C3: upper-case exactly the components that
the schema declares as literal keys, leaving value components untouched. -/
def upcaseLiteralComponents : List Segment → List (List Char) → List (List Char)
  | _, [] => []
  | [], comps => comps
  | seg :: segs, c :: cs =>
    (if seg.kind.isLiteralKey then c.map Char.toUpper else c) ::
      upcaseLiteralComponents segs cs

/-- The string of claim C3: the path string with exactly its literal-key
components upper-cased. -/
def upcaseLiteralKeys (segs : List Segment) (s : String) : String :=
  String.mk (joinComponents (upcaseLiteralComponents segs (splitPath s.toList)))

theorem matchesLiteral_upcase {f : String} {c : List Char}
    (h : matchesLiteral f c = true) : matchesLiteral f (c.map Char.toUpper) = true := by
  rw [matchesLiteral_iff] at h ⊢
  rw [List.map_map]
  have hcomp : (Char.toLower ∘ Char.toUpper) = Char.toLower := funext toLower_toUpper
  rw [hcomp]
  exact h

theorem parseSegments_upcase {segs : List Segment} {comps : List (List Char)}
    {vals : List String} (h : parseSegments segs comps = .ok vals) :
    parseSegments segs (upcaseLiteralComponents segs comps) = .ok vals := by
  induction segs generalizing comps vals with
  | nil =>
    obtain ⟨rfl, rfl⟩ := parseSegments_nil_ok h
    simp [upcaseLiteralComponents, parseSegments]
  | cons seg segs ih =>
    cases comps with
    | nil => simp [parseSegments] at h
    | cons c cs =>
      cases hkind : seg.kind with
      | staticLiteral =>
        obtain ⟨hc, hm, ht⟩ := parseSegments_ok_static (Or.inl hkind) h
        have hlk : seg.kind.isLiteralKey = true := by simp [SegmentKind.isLiteralKey, hkind]
        have hfmt : upcaseLiteralComponents (seg :: segs) (c :: cs) =
            c.map Char.toUpper :: upcaseLiteralComponents segs cs := by
          simp [upcaseLiteralComponents, hlk]
        rw [hfmt, parseSegments_step_literal seg segs _ _ hlk
          (by simpa using hc) (matchesLiteral_upcase hm)]
        exact ih ht
      | resourceProviderLiteral =>
        obtain ⟨hc, hm, ht⟩ := parseSegments_ok_static (Or.inr hkind) h
        have hlk : seg.kind.isLiteralKey = true := by simp [SegmentKind.isLiteralKey, hkind]
        have hfmt : upcaseLiteralComponents (seg :: segs) (c :: cs) =
            c.map Char.toUpper :: upcaseLiteralComponents segs cs := by
          simp [upcaseLiteralComponents, hlk]
        rw [hfmt, parseSegments_step_literal seg segs _ _ hlk
          (by simpa using hc) (matchesLiteral_upcase hm)]
        exact ih ht
      | subscription =>
        obtain ⟨hc, vs, ht, rfl⟩ := parseSegments_ok_value (Or.inl hkind) h
        have hlk : seg.kind.isLiteralKey = false := by simp [SegmentKind.isLiteralKey, hkind]
        have hfmt : upcaseLiteralComponents (seg :: segs) (c :: cs) =
            c :: upcaseLiteralComponents segs cs := by
          simp [upcaseLiteralComponents, hlk]
        rw [hfmt, parseSegments_step_value seg segs _ _ (Or.inl hkind) hc, ih ht]
        rfl
      | resourceGroup =>
        obtain ⟨hc, vs, ht, rfl⟩ := parseSegments_ok_value (Or.inr (Or.inl hkind)) h
        have hlk : seg.kind.isLiteralKey = false := by simp [SegmentKind.isLiteralKey, hkind]
        have hfmt : upcaseLiteralComponents (seg :: segs) (c :: cs) =
            c :: upcaseLiteralComponents segs cs := by
          simp [upcaseLiteralComponents, hlk]
        rw [hfmt, parseSegments_step_value seg segs _ _ (Or.inr (Or.inl hkind)) hc, ih ht]
        rfl
      | userSpecifiedName =>
        obtain ⟨hc, vs, ht, rfl⟩ := parseSegments_ok_value (Or.inr (Or.inr hkind)) h
        have hlk : seg.kind.isLiteralKey = false := by simp [SegmentKind.isLiteralKey, hkind]
        have hfmt : upcaseLiteralComponents (seg :: segs) (c :: cs) =
            c :: upcaseLiteralComponents segs cs := by
          simp [upcaseLiteralComponents, hlk]
        rw [hfmt, parseSegments_step_value seg segs _ _ (Or.inr (Or.inr hkind)) hc, ih ht]
        rfl
      | constantValue =>
        obtain ⟨hc, hmem, vs, ht, rfl⟩ := parseSegments_ok_constant hkind h
        have hlk : seg.kind.isLiteralKey = false := by simp [SegmentKind.isLiteralKey, hkind]
        have hfmt : upcaseLiteralComponents (seg :: segs) (c :: cs) =
            c :: upcaseLiteralComponents segs cs := by
          simp [upcaseLiteralComponents, hlk]
        rw [hfmt]
        simp only [parseSegments, hkind, if_neg hc, if_pos hmem, ih ht]
        rfl

/-! ## Canonicalization and the format of parsed values -/

/-- The canonicalization of claim C2 (spec §4.4): replace each literal-key
component by the schema's canonical casing and keep every value component
byte-for-byte. -/
def canonicalizeComponents : List Segment → List (List Char) → List (List Char)
  | _, [] => []
  | [], comps => comps
  | seg :: segs, c :: cs =>
    (if seg.kind.isLiteralKey then seg.fixedValue.toList else c) ::
      canonicalizeComponents segs cs

theorem formatComponents_eq_canonicalize {segs : List Segment} {comps : List (List Char)}
    {vals : List String} (h : parseSegments segs comps = .ok vals) :
    formatComponents segs vals = canonicalizeComponents segs comps := by
  induction segs generalizing comps vals with
  | nil =>
    obtain ⟨rfl, rfl⟩ := parseSegments_nil_ok h
    simp [formatComponents, canonicalizeComponents]
  | cons seg segs ih =>
    cases comps with
    | nil => simp [parseSegments] at h
    | cons c cs =>
      cases hkind : seg.kind with
      | staticLiteral =>
        obtain ⟨hc, hm, ht⟩ := parseSegments_ok_static (Or.inl hkind) h
        have hlk : seg.kind.isLiteralKey = true := by simp [SegmentKind.isLiteralKey, hkind]
        simp [formatComponents, canonicalizeComponents, hlk, ih ht]
      | resourceProviderLiteral =>
        obtain ⟨hc, hm, ht⟩ := parseSegments_ok_static (Or.inr hkind) h
        have hlk : seg.kind.isLiteralKey = true := by simp [SegmentKind.isLiteralKey, hkind]
        simp [formatComponents, canonicalizeComponents, hlk, ih ht]
      | subscription =>
        obtain ⟨hc, vs, ht, rfl⟩ := parseSegments_ok_value (Or.inl hkind) h
        have hlk : seg.kind.isLiteralKey = false := by simp [SegmentKind.isLiteralKey, hkind]
        simp [formatComponents, canonicalizeComponents, hlk, ih ht, String.toList]
      | resourceGroup =>
        obtain ⟨hc, vs, ht, rfl⟩ := parseSegments_ok_value (Or.inr (Or.inl hkind)) h
        have hlk : seg.kind.isLiteralKey = false := by simp [SegmentKind.isLiteralKey, hkind]
        simp [formatComponents, canonicalizeComponents, hlk, ih ht, String.toList]
      | userSpecifiedName =>
        obtain ⟨hc, vs, ht, rfl⟩ := parseSegments_ok_value (Or.inr (Or.inr hkind)) h
        have hlk : seg.kind.isLiteralKey = false := by simp [SegmentKind.isLiteralKey, hkind]
        simp [formatComponents, canonicalizeComponents, hlk, ih ht, String.toList]
      | constantValue =>
        obtain ⟨hc, hmem, vs, ht, rfl⟩ := parseSegments_ok_constant hkind h
        have hlk : seg.kind.isLiteralKey = false := by simp [SegmentKind.isLiteralKey, hkind]
        simp [formatComponents, canonicalizeComponents, hlk, ih ht, String.toList]

/-! ## Parsing formatted output (round trip) -/

/-- The number of value segments of a schema: the number of values the
formatter consumes and the parser produces. -/
def countValueSegments : List Segment → Nat
  | [] => 0
  | seg :: segs =>
    (if seg.kind.isLiteralKey then 0 else 1) + countValueSegments segs

theorem mem_formatComponents {segs : List Segment} {vals : List String} {p : List Char}
    (hp : p ∈ formatComponents segs vals) :
    (∃ seg ∈ segs, seg.kind.isLiteralKey = true ∧ p = seg.fixedValue.toList) ∨
      ∃ v ∈ vals, p = v.toList := by
  induction segs generalizing vals with
  | nil => simp [formatComponents] at hp
  | cons seg segs ih =>
    by_cases hk : seg.kind.isLiteralKey = true
    · rw [show formatComponents (seg :: segs) vals =
          seg.fixedValue.toList :: formatComponents segs vals by simp [formatComponents, hk]] at hp
      rcases List.mem_cons.mp hp with hpc | hpc
      · exact Or.inl ⟨seg, List.mem_cons_self _ _, hk, hpc⟩
      · rcases ih hpc with ⟨s, hs, hsk, hsp⟩ | ⟨v, hv, hvp⟩
        · exact Or.inl ⟨s, List.mem_cons_of_mem _ hs, hsk, hsp⟩
        · exact Or.inr ⟨v, hv, hvp⟩
    · cases vals with
      | nil =>
        rw [show formatComponents (seg :: segs) [] = formatComponents segs [] by
          simp [formatComponents, hk]] at hp
        rcases ih hp with ⟨s, hs, hsk, hsp⟩ | ⟨v, hv, hvp⟩
        · exact Or.inl ⟨s, List.mem_cons_of_mem _ hs, hsk, hsp⟩
        · simp at hv
      | cons v vs =>
        rw [show formatComponents (seg :: segs) (v :: vs) =
            v.toList :: formatComponents segs vs by simp [formatComponents, hk]] at hp
        rcases List.mem_cons.mp hp with hpc | hpc
        · exact Or.inr ⟨v, List.mem_cons_self _ _, hpc⟩
        · rcases ih hpc with ⟨s, hs, hsk, hsp⟩ | ⟨w, hw, hwp⟩
          · exact Or.inl ⟨s, List.mem_cons_of_mem _ hs, hsk, hsp⟩
          · exact Or.inr ⟨w, List.mem_cons_of_mem _ hw, hwp⟩

theorem parseSegments_formatComponents (segs : List Segment) (vals : List String)
    (hnoconst : ∀ seg ∈ segs, seg.kind ≠ .constantValue)
    (hlit : ∀ seg ∈ segs, seg.kind.isLiteralKey = true → seg.fixedValue ≠ "")
    (hv : ∀ v ∈ vals, v ≠ "")
    (hcount : vals.length = countValueSegments segs) :
    parseSegments segs (formatComponents segs vals) = .ok vals := by
  induction segs generalizing vals with
  | nil =>
    have hvals : vals = [] := List.length_eq_zero.mp (by simpa [countValueSegments] using hcount)
    subst hvals
    simp [formatComponents, parseSegments]
  | cons seg segs ih =>
    by_cases hk : seg.kind.isLiteralKey = true
    · have hf : seg.fixedValue ≠ "" := hlit seg (List.mem_cons_self _ _) hk
      have hfl : seg.fixedValue.toList ≠ [] := toList_ne_nil hf
      have hm : matchesLiteral seg.fixedValue seg.fixedValue.toList = true := by
        simp [matchesLiteral]
      rw [show formatComponents (seg :: segs) vals =
          seg.fixedValue.toList :: formatComponents segs vals by simp [formatComponents, hk],
        parseSegments_step_literal seg segs _ _ hk hfl hm]
      refine ih vals (fun s hs => hnoconst s (List.mem_cons_of_mem _ hs))
        (fun s hs => hlit s (List.mem_cons_of_mem _ hs)) hv ?_
      rw [hcount]
      simp [countValueSegments, hk]
    · have hkind3 : seg.kind = .subscription ∨ seg.kind = .resourceGroup ∨
          seg.kind = .userSpecifiedName := by
        cases hkk : seg.kind with
        | staticLiteral => simp [SegmentKind.isLiteralKey, hkk] at hk
        | resourceProviderLiteral => simp [SegmentKind.isLiteralKey, hkk] at hk
        | subscription => exact Or.inl rfl
        | resourceGroup => exact Or.inr (Or.inl rfl)
        | userSpecifiedName => exact Or.inr (Or.inr rfl)
        | constantValue => exact absurd hkk (hnoconst seg (List.mem_cons_self _ _))
      cases vals with
      | nil =>
        exfalso
        rw [show ([] : List String).length = 0 from rfl] at hcount
        have : countValueSegments (seg :: segs) =
            1 + countValueSegments segs := by simp [countValueSegments, hk]
        omega
      | cons v vs =>
        have hvne : v ≠ "" := hv v (List.mem_cons_self _ _)
        have hvl : v.toList ≠ [] := toList_ne_nil hvne
        rw [show formatComponents (seg :: segs) (v :: vs) =
            v.toList :: formatComponents segs vs by simp [formatComponents, hk],
          parseSegments_step_value seg segs _ _ hkind3 hvl,
          ih vs (fun s hs => hnoconst s (List.mem_cons_of_mem _ hs))
            (fun s hs => hlit s (List.mem_cons_of_mem _ hs))
            (fun w hw => hv w (List.mem_cons_of_mem _ hw))
            (by rw [show (v :: vs).length = vs.length + 1 from rfl] at hcount
                have : countValueSegments (seg :: segs) =
                    1 + countValueSegments segs := by simp [countValueSegments, hk]
                omega)]
        rfl

/-! ## Membership through splitting, and reconstructing the input -/

theorem mem_stripLead {l : List (List Char)} {p : List Char} (hp : p ∈ stripLead l) :
    p ∈ l := by
  cases l with
  | nil => simp [stripLead] at hp
  | cons x xs =>
    cases x with
    | nil => exact List.mem_cons_of_mem _ hp
    | cons a as => exact hp

theorem mem_stripTrail {l : List (List Char)} {p : List Char} (hp : p ∈ stripTrail l) :
    p ∈ l := by
  induction l with
  | nil => simp [stripTrail] at hp
  | cons x xs ih =>
    cases xs with
    | nil =>
      by_cases hx : x = []
      · simp [stripTrail, hx] at hp
      · simp [stripTrail, hx] at hp
        simp [hp]
    | cons y ys =>
      rw [show stripTrail (x :: y :: ys) = x :: stripTrail (y :: ys) from rfl] at hp
      rcases List.mem_cons.mp hp with h | h
      · simp [h]
      · exact List.mem_cons_of_mem _ (ih h)

theorem mem_splitPath {cs : List Char} {p : List Char} (hp : p ∈ splitPath cs) :
    p ∈ rawSplit cs :=
  mem_stripLead (mem_stripTrail hp)

theorem not_slash_mem_splitPath {cs : List Char} {p : List Char} (hp : p ∈ splitPath cs) :
    '/' ∉ p :=
  not_slash_mem_rawSplit cs p (mem_splitPath hp)

theorem mem_upcaseLiteralComponents {segs : List Segment} {comps : List (List Char)}
    {p : List Char} (hp : p ∈ upcaseLiteralComponents segs comps) :
    ∃ q ∈ comps, p = q ∨ p = q.map Char.toUpper := by
  induction segs generalizing comps with
  | nil =>
    cases comps with
    | nil => simp [upcaseLiteralComponents] at hp
    | cons c cs =>
      exact ⟨p, by simpa [upcaseLiteralComponents] using hp, Or.inl rfl⟩
  | cons seg segs ih =>
    cases comps with
    | nil => simp [upcaseLiteralComponents] at hp
    | cons c cs =>
      rw [show upcaseLiteralComponents (seg :: segs) (c :: cs) =
          (if seg.kind.isLiteralKey then c.map Char.toUpper else c) ::
            upcaseLiteralComponents segs cs by simp [upcaseLiteralComponents]] at hp
      rcases List.mem_cons.mp hp with h | h
      · by_cases hk : seg.kind.isLiteralKey = true
        · rw [if_pos hk] at h
          exact ⟨c, List.mem_cons_self _ _, Or.inr h⟩
        · rw [if_neg hk] at h
          exact ⟨c, List.mem_cons_self _ _, Or.inl h⟩
      · obtain ⟨q, hq, hpq⟩ := ih h
        exact ⟨q, List.mem_cons_of_mem _ hq, hpq⟩

theorem not_slash_map_toUpper {q : List Char} (h : '/' ∉ q) :
    '/' ∉ q.map Char.toUpper := by
  intro hm
  obtain ⟨c, hc, he⟩ := List.mem_map.mp hm
  exact toUpper_ne_slash c (fun e => h (e ▸ hc)) he

theorem joinRaw_cons (c : List Char) (p : List Char) (ps : List (List Char)) :
    joinRaw ((c ++ p) :: ps) = c ++ joinRaw (p :: ps) := by
  induction c with
  | nil => simp
  | cons x xs ih =>
    cases ps with
    | nil => simp [joinRaw]
    | cons q qs =>
      rw [show joinRaw (((x :: xs) ++ p) :: q :: qs) =
          ((x :: xs) ++ p) ++ '/' :: joinRaw (q :: qs) from rfl,
        show joinRaw (p :: q :: qs) = p ++ '/' :: joinRaw (q :: qs) from rfl,
        List.append_assoc]

theorem joinRaw_rawSplit (cs : List Char) : joinRaw (rawSplit cs) = cs := by
  induction cs with
  | nil => rfl
  | cons c t ih =>
    by_cases hc : c = '/'
    · subst hc
      rw [rawSplit_slash_cons]
      rcases hq : rawSplit t with _ | ⟨p, ps⟩
      · exact absurd hq (rawSplit_ne_nil t)
      · rw [show joinRaw ([] :: p :: ps) = [] ++ '/' :: joinRaw (p :: ps) from rfl]
        rw [← hq, ih]
        rfl
    · rcases hq : rawSplit t with _ | ⟨p, ps⟩
      · exact absurd hq (rawSplit_ne_nil t)
      · rw [rawSplit_cons_ne c t hc p ps hq,
          show (c :: p) = [c] ++ p from rfl, joinRaw_cons, ← hq, ih]
        rfl

theorem joinComponents_eq_joinRaw (l : List (List Char)) (h : l ≠ []) :
    joinComponents l = '/' :: joinRaw l := by
  induction l with
  | nil => exact absurd rfl h
  | cons c rest ih =>
    cases rest with
    | nil => simp [joinComponents, joinRaw]
    | cons d ds =>
      rw [show joinComponents (c :: d :: ds) = '/' :: (c ++ joinComponents (d :: ds)) from rfl,
        ih (by simp),
        show joinRaw (c :: d :: ds) = c ++ '/' :: joinRaw (d :: ds) from rfl]

theorem getLast_rawSplit_ne_nil (t : List Char) (ht : t ≠ [])
    (hlast : t.getLast? ≠ some '/') : (rawSplit t).getLast? ≠ some ([] : List Char) := by
  induction t with
  | nil => exact absurd rfl ht
  | cons x t ih =>
    cases t with
    | nil =>
      have hx : x ≠ '/' := by simpa using hlast
      rw [rawSplit_cons_ne x [] hx [] [] rfl]
      simp
    | cons y t' =>
      have hlast' : (y :: t').getLast? ≠ some '/' := by
        rwa [List.getLast?_cons_cons] at hlast
      have hrec := ih (by simp) hlast'
      by_cases hx : x = '/'
      · subst hx
        rw [rawSplit_slash_cons]
        rcases hq : rawSplit (y :: t') with _ | ⟨p, ps⟩
        · exact absurd hq (rawSplit_ne_nil _)
        · rw [hq] at hrec
          rwa [List.getLast?_cons_cons]
      · rcases hq : rawSplit (y :: t') with _ | ⟨p, ps⟩
        · exact absurd hq (rawSplit_ne_nil _)
        · rw [rawSplit_cons_ne x (y :: t') hx p ps hq]
          rw [hq] at hrec
          cases ps with
          | nil =>
            simp
          | cons q qs =>
            rw [List.getLast?_cons_cons]
            rwa [List.getLast?_cons_cons] at hrec

theorem stripTrail_of_getLast (l : List (List Char))
    (h : l.getLast? ≠ some ([] : List Char)) : stripTrail l = l := by
  induction l with
  | nil => rfl
  | cons x xs ih =>
    cases xs with
    | nil =>
      have hx : x ≠ [] := by simpa using h
      simp [stripTrail, hx]
    | cons y ys =>
      rw [show stripTrail (x :: y :: ys) = x :: stripTrail (y :: ys) from rfl,
        ih (by rwa [List.getLast?_cons_cons] at h)]

/-- A path string that begins with a slash and does not end with one is
reconstructed exactly by joining its split components. -/
theorem joinComponents_splitPath (cs : List Char)
    (hhead : cs.head? = some '/') (hlast : cs.getLast? ≠ some '/') :
    joinComponents (splitPath cs) = cs := by
  cases cs with
  | nil => simp at hhead
  | cons c t =>
    have hc : c = '/' := by simpa using hhead
    subst hc
    cases t with
    | nil => simp at hlast
    | cons x t' =>
      have hlast' : (x :: t').getLast? ≠ some '/' := by
        rwa [List.getLast?_cons_cons] at hlast
      unfold splitPath
      rw [rawSplit_slash_cons, stripLead_cons_nil,
        stripTrail_of_getLast _ (getLast_rawSplit_ne_nil (x :: t') (by simp) hlast'),
        joinComponents_eq_joinRaw _ (rawSplit_ne_nil _), joinRaw_rawSplit]

/-! ## Values are the input's value components, byte for byte -/

/-- The components of a path that a schema declares as value segments, in
order. -/
def valueComponents : List Segment → List (List Char) → List (List Char)
  | _, [] => []
  | [], _ :: _ => []
  | seg :: segs, c :: cs =>
    if seg.kind.isLiteralKey then valueComponents segs cs
    else c :: valueComponents segs cs

theorem parseSegments_vals_eq_valueComponents {segs : List Segment}
    {comps : List (List Char)} {vals : List String}
    (h : parseSegments segs comps = .ok vals) :
    vals.map String.toList = valueComponents segs comps := by
  induction segs generalizing comps vals with
  | nil =>
    obtain ⟨rfl, rfl⟩ := parseSegments_nil_ok h
    simp [valueComponents]
  | cons seg segs ih =>
    cases comps with
    | nil => simp [parseSegments] at h
    | cons c cs =>
      cases hkind : seg.kind with
      | staticLiteral =>
        obtain ⟨hc, hm, ht⟩ := parseSegments_ok_static (Or.inl hkind) h
        have hlk : seg.kind.isLiteralKey = true := by simp [SegmentKind.isLiteralKey, hkind]
        simp [valueComponents, hlk, ih ht]
      | resourceProviderLiteral =>
        obtain ⟨hc, hm, ht⟩ := parseSegments_ok_static (Or.inr hkind) h
        have hlk : seg.kind.isLiteralKey = true := by simp [SegmentKind.isLiteralKey, hkind]
        simp [valueComponents, hlk, ih ht]
      | subscription =>
        obtain ⟨hc, vs, ht, rfl⟩ := parseSegments_ok_value (Or.inl hkind) h
        have hlk : seg.kind.isLiteralKey = false := by simp [SegmentKind.isLiteralKey, hkind]
        simp [valueComponents, hlk, ih ht, String.toList]
      | resourceGroup =>
        obtain ⟨hc, vs, ht, rfl⟩ := parseSegments_ok_value (Or.inr (Or.inl hkind)) h
        have hlk : seg.kind.isLiteralKey = false := by simp [SegmentKind.isLiteralKey, hkind]
        simp [valueComponents, hlk, ih ht, String.toList]
      | userSpecifiedName =>
        obtain ⟨hc, vs, ht, rfl⟩ := parseSegments_ok_value (Or.inr (Or.inr hkind)) h
        have hlk : seg.kind.isLiteralKey = false := by simp [SegmentKind.isLiteralKey, hkind]
        simp [valueComponents, hlk, ih ht, String.toList]
      | constantValue =>
        obtain ⟨hc, hmem, vs, ht, rfl⟩ := parseSegments_ok_constant hkind h
        have hlk : seg.kind.isLiteralKey = false := by simp [SegmentKind.isLiteralKey, hkind]
        simp [valueComponents, hlk, ih ht, String.toList]

/-! ## Wrapper inversion for the MongodbDatabase parser -/

theorem MongodbDatabaseID_ok_iff {s : String} {i : MongodbDatabaseId} :
    parse.MongodbDatabaseID s = .ok i ↔
      parsePath MongodbDatabaseId.schema s =
        .ok [i.SubscriptionId, i.ResourceGroup, i.DatabaseAccountName, i.Name] := by
  constructor
  · intro h
    unfold parse.MongodbDatabaseID at h
    cases hP : parsePath MongodbDatabaseId.schema s with
    | error e =>
      rw [hP] at h
      simp at h
    | ok vals =>
      rw [hP] at h
      rcases vals with _ | ⟨a, _ | ⟨b, _ | ⟨c, _ | ⟨d, _ | ⟨e, rest⟩⟩⟩⟩⟩
      · simp at h
      · simp at h
      · simp at h
      · simp at h
      · have hi : i = ⟨a, b, c, d⟩ := by
          have : Except.ok (ε := ParseError) (MongodbDatabaseId.mk a b c d) = .ok i := h
          simpa using this.symm
        subst hi
        rfl
      · simp at h
  · intro h
    unfold parse.MongodbDatabaseID
    rw [h]

/-! ## Round trip: parsing the formatter's output -/

theorem parsePath_formatPath (segs : List Segment) (vals : List String)
    (hnoconst : ∀ seg ∈ segs, seg.kind ≠ .constantValue)
    (hlit : ∀ seg ∈ segs, seg.kind.isLiteralKey = true →
      seg.fixedValue ≠ "" ∧ '/' ∉ seg.fixedValue.toList)
    (hv : ∀ v ∈ vals, v ≠ "" ∧ '/' ∉ v.toList)
    (hcount : vals.length = countValueSegments segs) :
    parsePath segs (formatPath segs vals) = .ok vals := by
  unfold parsePath formatPath
  rw [show (String.mk (joinComponents (formatComponents segs vals))).toList =
      joinComponents (formatComponents segs vals) from rfl]
  have hslash : ∀ p ∈ formatComponents segs vals, '/' ∉ p := by
    intro p hp
    rcases mem_formatComponents hp with ⟨s, hs, hsk, rfl⟩ | ⟨v, hvmem, rfl⟩
    · exact (hlit s hs hsk).2
    · exact (hv v hvmem).2
  have hne : ∀ p ∈ formatComponents segs vals, p ≠ [] := by
    intro p hp
    rcases mem_formatComponents hp with ⟨s, hs, hsk, rfl⟩ | ⟨v, hvmem, rfl⟩
    · exact toList_ne_nil (hlit s hs hsk).1
    · exact toList_ne_nil (hv v hvmem).1
  rw [splitPath_joinComponents _ hslash hne]
  exact parseSegments_formatComponents segs vals hnoconst
    (fun s hs hk => (hlit s hs hk).1) (fun v hvm => (hv v hvm).1) hcount

/-- C1: for every identity built by one of the three constructors from
non-empty, slash-free field values, parsing the formatted ID string
succeeds and returns the identity unchanged, field for field. -/
theorem roundtrip_parse_format :
    (∀ sub rg acc nm : String,
      sub ≠ "" → '/' ∉ sub.toList → rg ≠ "" → '/' ∉ rg.toList →
      acc ≠ "" → '/' ∉ acc.toList → nm ≠ "" → '/' ∉ nm.toList →
      parse.MongodbDatabaseID ((parse.NewMongodbDatabaseID sub rg acc nm).ID) =
        .ok (parse.NewMongodbDatabaseID sub rg acc nm)) ∧
    (∀ sub rg rem : String,
      sub ≠ "" → '/' ∉ sub.toList → rg ≠ "" → '/' ∉ rg.toList →
      rem ≠ "" → '/' ∉ rem.toList →
      parse.ResourceGroupPolicyRemediationID
          ((parse.NewResourceGroupPolicyRemediationID sub rg rem).ID) =
        .ok (parse.NewResourceGroupPolicyRemediationID sub rg rem)) ∧
    (∀ sub rg fac vnet nm : String,
      sub ≠ "" → '/' ∉ sub.toList → rg ≠ "" → '/' ∉ rg.toList →
      fac ≠ "" → '/' ∉ fac.toList → vnet ≠ "" → '/' ∉ vnet.toList →
      nm ≠ "" → '/' ∉ nm.toList →
      parse.ManagedPrivateEndpointID ((parse.NewManagedPrivateEndpointID sub rg fac vnet nm).ID) =
        .ok (parse.NewManagedPrivateEndpointID sub rg fac vnet nm)) := by
  refine ⟨?_, ?_, ?_⟩
  · intro sub rg acc nm h1 h2 h3 h4 h5 h6 h7 h8
    have hvals : ∀ v ∈ [sub, rg, acc, nm], v ≠ "" ∧ '/' ∉ v.toList := by
      intro v hvm
      simp only [List.mem_cons, List.not_mem_nil, or_false] at hvm
      rcases hvm with rfl | rfl | rfl | rfl
      · exact ⟨h1, h2⟩
      · exact ⟨h3, h4⟩
      · exact ⟨h5, h6⟩
      · exact ⟨h7, h8⟩
    have h := parsePath_formatPath MongodbDatabaseId.schema [sub, rg, acc, nm]
      (by decide) (by decide) hvals rfl
    unfold parse.MongodbDatabaseID
    rw [show (parse.NewMongodbDatabaseID sub rg acc nm).ID =
        formatPath MongodbDatabaseId.schema [sub, rg, acc, nm] from rfl, h]
    rfl
  · intro sub rg rem h1 h2 h3 h4 h5 h6
    have hvals : ∀ v ∈ [sub, rg, rem], v ≠ "" ∧ '/' ∉ v.toList := by
      intro v hvm
      simp only [List.mem_cons, List.not_mem_nil, or_false] at hvm
      rcases hvm with rfl | rfl | rfl
      · exact ⟨h1, h2⟩
      · exact ⟨h3, h4⟩
      · exact ⟨h5, h6⟩
    have h := parsePath_formatPath ResourceGroupPolicyRemediationId.schema [sub, rg, rem]
      (by decide) (by decide) hvals rfl
    unfold parse.ResourceGroupPolicyRemediationID
    rw [show (parse.NewResourceGroupPolicyRemediationID sub rg rem).ID =
        formatPath ResourceGroupPolicyRemediationId.schema [sub, rg, rem] from rfl, h]
    rfl
  · intro sub rg fac vnet nm h1 h2 h3 h4 h5 h6 h7 h8 h9 h10
    have hvals : ∀ v ∈ [sub, rg, fac, vnet, nm], v ≠ "" ∧ '/' ∉ v.toList := by
      intro v hvm
      simp only [List.mem_cons, List.not_mem_nil, or_false] at hvm
      rcases hvm with rfl | rfl | rfl | rfl | rfl
      · exact ⟨h1, h2⟩
      · exact ⟨h3, h4⟩
      · exact ⟨h5, h6⟩
      · exact ⟨h7, h8⟩
      · exact ⟨h9, h10⟩
    have h := parsePath_formatPath ManagedPrivateEndpointId.schema [sub, rg, fac, vnet, nm]
      (by decide) (by decide) hvals rfl
    unfold parse.ManagedPrivateEndpointID
    rw [show (parse.NewManagedPrivateEndpointID sub rg fac vnet nm).ID =
        formatPath ManagedPrivateEndpointId.schema [sub, rg, fac, vnet, nm] from rfl, h]
    rfl

/-- Witness for C1 at the generated tests' concrete field values. -/
theorem roundtrip_parse_format_witness :
    parse.MongodbDatabaseID ((parse.NewMongodbDatabaseID
        "12345678-1234-9876-4563-123456789012" "resGroup1" "acc1" "db1").ID) =
      .ok (parse.NewMongodbDatabaseID
        "12345678-1234-9876-4563-123456789012" "resGroup1" "acc1" "db1") ∧
    parse.ResourceGroupPolicyRemediationID ((parse.NewResourceGroupPolicyRemediationID
        "12345678-1234-9876-4563-123456789012" "resGroup1" "remediation1").ID) =
      .ok (parse.NewResourceGroupPolicyRemediationID
        "12345678-1234-9876-4563-123456789012" "resGroup1" "remediation1") ∧
    parse.ManagedPrivateEndpointID ((parse.NewManagedPrivateEndpointID
        "12345678-1234-9876-4563-123456789012" "resGroup1" "factory1" "vnet1" "endpoint1").ID) =
      .ok (parse.NewManagedPrivateEndpointID
        "12345678-1234-9876-4563-123456789012" "resGroup1" "factory1" "vnet1" "endpoint1") :=
  ⟨roundtrip_parse_format.1 _ _ _ _ (by decide) (by decide) (by decide) (by decide)
      (by decide) (by decide) (by decide) (by decide),
   roundtrip_parse_format.2.1 _ _ _ (by decide) (by decide) (by decide) (by decide)
      (by decide) (by decide),
   roundtrip_parse_format.2.2 _ _ _ _ _ (by decide) (by decide) (by decide) (by decide)
      (by decide) (by decide) (by decide) (by decide) (by decide) (by decide)⟩

/-- C3: upper-casing exactly the literal-key components of a path string
that parses successfully yields a string that still parses successfully,
to the identical result — stated generically for every schema and value
list, and for the MongodbDatabase parser's typed identity. -/
theorem uppercase_literals_still_parses :
    (∀ (segs : List Segment) (s : String) (vals : List String),
      parsePath segs s = .ok vals →
      parsePath segs (upcaseLiteralKeys segs s) = .ok vals) ∧
    (∀ (s : String) (i : MongodbDatabaseId),
      parse.MongodbDatabaseID s = .ok i →
      parse.MongodbDatabaseID (upcaseLiteralKeys MongodbDatabaseId.schema s) = .ok i) := by
  have hgen : ∀ (segs : List Segment) (s : String) (vals : List String),
      parsePath segs s = .ok vals →
      parsePath segs (upcaseLiteralKeys segs s) = .ok vals := by
    intro segs s vals h
    unfold parsePath at h ⊢
    unfold upcaseLiteralKeys
    rw [show (String.mk (joinComponents
        (upcaseLiteralComponents segs (splitPath s.toList)))).toList =
      joinComponents (upcaseLiteralComponents segs (splitPath s.toList)) from rfl]
    have hne := parseSegments_comps_ne_nil h
    have hslash' : ∀ p ∈ upcaseLiteralComponents segs (splitPath s.toList), '/' ∉ p := by
      intro p hp
      obtain ⟨q, hq, hpq⟩ := mem_upcaseLiteralComponents hp
      have hqs : '/' ∉ q := not_slash_mem_splitPath hq
      rcases hpq with rfl | rfl
      · exact hqs
      · exact not_slash_map_toUpper hqs
    have hne' : ∀ p ∈ upcaseLiteralComponents segs (splitPath s.toList), p ≠ [] := by
      intro p hp
      obtain ⟨q, hq, hpq⟩ := mem_upcaseLiteralComponents hp
      have hqn : q ≠ [] := hne q hq
      rcases hpq with rfl | rfl
      · exact hqn
      · simpa using hqn
    rw [splitPath_joinComponents _ hslash' hne']
    exact parseSegments_upcase h
  refine ⟨hgen, ?_⟩
  intro s i h
  rw [MongodbDatabaseID_ok_iff] at h ⊢
  exact hgen _ _ _ h

/-- Witness for C3: the valid MongodbDatabase ID string of the generated
test, with its literal-key components upper-cased, still parses to the same
identity. -/
theorem uppercase_literals_still_parses_witness :
    parse.MongodbDatabaseID (upcaseLiteralKeys MongodbDatabaseId.schema
        "/subscriptions/12345678-1234-9876-4563-123456789012/resourceGroups/resGroup1/providers/Microsoft.DocumentDB/databaseAccounts/acc1/mongodbDatabases/db1") =
      .ok ⟨"12345678-1234-9876-4563-123456789012", "resGroup1", "acc1", "db1"⟩ :=
  uppercase_literals_still_parses.2 _
    ⟨"12345678-1234-9876-4563-123456789012", "resGroup1", "acc1", "db1"⟩ rfl

/-! ## Truncation at a slash boundary -/

/-- The truncation of claim C8: keep the first `k` components of a path and
the slash that follows them. -/
def truncateAtBoundary (s : String) (k : Nat) : String :=
  String.mk (joinComponents ((splitPath s.toList).take k) ++ ['/'])

/-- C8: truncating a successfully parsed path at the slash boundary after
its first `k` components (for any `k` strictly below the schema length,
hence strictly before the final segment) fails with `missingSegmentValue`
naming the first omitted segment; in particular the ManagedPrivateEndpoint
path with a trailing empty name fails naming the final `Name` segment. -/
theorem truncation_missing_segment :
    (∀ (segs : List Segment) (s : String) (vals : List String) (k : Nat),
      parsePath segs s = .ok vals → k < segs.length →
      parsePath segs (truncateAtBoundary s k) =
        .error (.missingSegmentValue (segmentNameAt segs k))) ∧
    parse.ManagedPrivateEndpointID
        "/subscriptions/12345678-1234-9876-4563-123456789012/resourceGroups/resGroup1/providers/Microsoft.DataFactory/factories/factory1/managedVirtualNetworks/vnet1/managedPrivateEndpoints/" =
      .error (.missingSegmentValue "Name") := by
  constructor
  · intro segs s vals k h hk
    unfold parsePath at h ⊢
    unfold truncateAtBoundary
    rw [show (String.mk (joinComponents ((splitPath s.toList).take k) ++ ['/'])).toList =
        joinComponents ((splitPath s.toList).take k) ++ ['/'] from rfl]
    have hslash : ∀ p ∈ (splitPath s.toList).take k, '/' ∉ p :=
      fun p hp => not_slash_mem_splitPath (List.take_subset _ _ hp)
    have hne : ∀ p ∈ (splitPath s.toList).take k, p ≠ [] :=
      fun p hp => parseSegments_comps_ne_nil h p (List.take_subset _ _ hp)
    rw [splitPath_joinComponents_slash _ hslash hne]
    exact parseSegments_take h k hk
  · rfl

/-- Witness for C8: truncating the valid MongodbDatabase ID string after
its third component fails naming the omitted `ResourceGroup` segment. -/
theorem truncation_missing_segment_witness :
    parsePath MongodbDatabaseId.schema
        (truncateAtBoundary
          "/subscriptions/12345678-1234-9876-4563-123456789012/resourceGroups/resGroup1/providers/Microsoft.DocumentDB/databaseAccounts/acc1/mongodbDatabases/db1" 3) =
      .error (.missingSegmentValue "ResourceGroup") :=
  truncation_missing_segment.1 MongodbDatabaseId.schema _
    ["12345678-1234-9876-4563-123456789012", "resGroup1", "acc1", "db1"] 3 rfl (by decide)

/-- C2 (amended): for a MongodbDatabase ID string that parses successfully,
begins with a slash and does not end with one, formatting the parsed
identity reproduces the input exactly up to replacing each literal-key
component by the schema's canonical casing, and the parsed value segments
are the input's value components byte for byte.  (The counterexample shows
a trailing slash is accepted by the parser but dropped by the formatter,
so the leading/trailing-slash shape of the input must be fixed.) -/
theorem format_parse_canonicalizes :
    ∀ (s : String) (i : MongodbDatabaseId),
      parse.MongodbDatabaseID s = .ok i →
      s.toList.head? = some '/' →
      s.toList.getLast? ≠ some '/' →
      i.ID.toList =
        joinComponents (canonicalizeComponents MongodbDatabaseId.schema (splitPath s.toList)) ∧
      s.toList = joinComponents (splitPath s.toList) ∧
      [i.SubscriptionId, i.ResourceGroup, i.DatabaseAccountName, i.Name].map String.toList =
        valueComponents MongodbDatabaseId.schema (splitPath s.toList) := by
  intro s i h hhead hlast
  rw [MongodbDatabaseID_ok_iff] at h
  unfold parsePath at h
  refine ⟨?_, (joinComponents_splitPath _ hhead hlast).symm,
    parseSegments_vals_eq_valueComponents h⟩
  rw [show i.ID.toList = joinComponents (formatComponents MongodbDatabaseId.schema
      [i.SubscriptionId, i.ResourceGroup, i.DatabaseAccountName, i.Name]) from rfl,
    formatComponents_eq_canonicalize h]

/-- Witness for the amended C2 at a mixed-case input: parsing the valid
MongodbDatabase ID string with oddly-cased literal keys and formatting the
result canonicalizes exactly the literal keys and preserves the values. -/
theorem format_parse_canonicalizes_witness :
    (MongodbDatabaseId.ID
        ⟨"12345678-1234-9876-4563-123456789012", "resGroup1", "acc1", "db1"⟩).toList =
      joinComponents (canonicalizeComponents MongodbDatabaseId.schema (splitPath
        "/SUBSCRIPTIONS/12345678-1234-9876-4563-123456789012/resourcegroups/resGroup1/providers/microsoft.documentdb/databaseaccounts/acc1/MongodbDatabases/db1".toList)) ∧
    "/SUBSCRIPTIONS/12345678-1234-9876-4563-123456789012/resourcegroups/resGroup1/providers/microsoft.documentdb/databaseaccounts/acc1/MongodbDatabases/db1".toList =
      joinComponents (splitPath
        "/SUBSCRIPTIONS/12345678-1234-9876-4563-123456789012/resourcegroups/resGroup1/providers/microsoft.documentdb/databaseaccounts/acc1/MongodbDatabases/db1".toList) ∧
    ["12345678-1234-9876-4563-123456789012", "resGroup1", "acc1", "db1"].map String.toList =
      valueComponents MongodbDatabaseId.schema (splitPath
        "/SUBSCRIPTIONS/12345678-1234-9876-4563-123456789012/resourcegroups/resGroup1/providers/microsoft.documentdb/databaseaccounts/acc1/MongodbDatabases/db1".toList) := by
  have h := format_parse_canonicalizes
    "/SUBSCRIPTIONS/12345678-1234-9876-4563-123456789012/resourcegroups/resGroup1/providers/microsoft.documentdb/databaseaccounts/acc1/MongodbDatabases/db1"
    ⟨"12345678-1234-9876-4563-123456789012", "resGroup1", "acc1", "db1"⟩
    rfl rfl (by decide)
  exact h

/-- C9: the validator returns no errors exactly when the parser succeeds,
and on a parse failure returns exactly one error, prefixed with the
caller's field path, whose text contains the offending segment name. -/
theorem validator_iff_parse :
    ∀ input key : String,
      (validate.ManagedPrivateEndpointID input key = [] ↔
        ∃ i, parse.ManagedPrivateEndpointID input = .ok i) ∧
      ∀ e, parse.ManagedPrivateEndpointID input = .error e →
        validate.ManagedPrivateEndpointID input key =
          [key ++ ": " ++ describeParseError e] ∧
        (offendingSegmentName e).data <:+: (key ++ ": " ++ describeParseError e).data := by
  intro input key
  constructor
  · constructor
    · intro h
      cases hP : parse.ManagedPrivateEndpointID input with
      | ok i => exact ⟨i, rfl⟩
      | error e =>
        unfold validate.ManagedPrivateEndpointID at h
        rw [hP] at h
        simp at h
    · rintro ⟨i, hP⟩
      unfold validate.ManagedPrivateEndpointID
      rw [hP]
  · intro e hP
    have hmsg : validate.ManagedPrivateEndpointID input key =
        [key ++ ": " ++ describeParseError e] := by
      unfold validate.ManagedPrivateEndpointID
      rw [hP]
    refine ⟨hmsg, ?_⟩
    cases e with
    | missingSegmentValue n =>
      refine ⟨(key ++ ": " ++ "missing value for segment ").data, [], ?_⟩
      simp [describeParseError, offendingSegmentName, String.data_append, List.append_assoc]
    | unexpectedSegment ex ac =>
      refine ⟨(key ++ ": " ++ "expected segment ").data,
        (" but got segment " ++ ac).data, ?_⟩
      simp [describeParseError, offendingSegmentName, String.data_append, List.append_assoc]
    | tooManySegments r =>
      exact ⟨[], (key ++ ": " ++ describeParseError (.tooManySegments r)).data, by
        simp [offendingSegmentName]⟩
    | invalidConstantValue n v allowed =>
      refine ⟨(key ++ ": " ++ ("the value " ++ v ++ " is not allowed for constant segment ")).data,
        [], ?_⟩
      simp [describeParseError, offendingSegmentName, String.data_append, List.append_assoc]

/-- Witness for C9: the empty input fails to parse, and the validator
reports exactly one error naming the missing `subscriptions` segment with
the caller's field path prefixed. -/
theorem validator_iff_parse_witness :
    validate.ManagedPrivateEndpointID "" "test" =
      ["test" ++ ": " ++ describeParseError (.missingSegmentValue "subscriptions")] ∧
    ("subscriptions" : String).data <:+:
      ("test" ++ ": " ++ describeParseError (.missingSegmentValue "subscriptions")).data :=
  (validator_iff_parse "" "test").2 (.missingSegmentValue "subscriptions") rfl

/-- Witness for C7 at a concrete schema: the one-segment schema holding
only the leading `subscriptions` literal reports that segment on empty
input. -/
theorem empty_input_missing_first_segment_witness :
    parsePath [NewStaticLiteralSegment "subscriptions"] "" =
      .error (.missingSegmentValue "subscriptions") :=
  empty_input_missing_first_segment.1 (NewStaticLiteralSegment "subscriptions") []
